import Mathlib

/-!
Verification of the `kubectl-api-resource-versions` discovery/filter/sort/print
pipeline (package `cmd`, file `apiresourceversions.go`) against its
natural-language specification.

The Go code is shallowly embedded: machine state is passed explicitly, the
discovery client is a record of pure fallible functions, panics and wrapped
errors are `Except String`, and Go's `map[string]string` (insert-overwrites)
is an association list in which later insertions are consed to the front and
lookup takes the first hit.
-/

/-! ## String helpers

`splitFirstSlash` mirrors the effect of Go's `strings.SplitN(s, "/", 2)`:
it returns the characters before the first `/` and everything after it
(further slashes kept), or `none` when the string has no slash.
-/

/-- Characters before the first slash and everything after it, if a slash occurs. -/
def splitFirstSlash : List Char → Option (List Char × List Char)
  | [] => none
  | c :: cs =>
    if c = '/' then some ([], cs)
    else
      match splitFirstSlash cs with
      | none => none
      | some (a, b) => some (c :: a, b)

/-- Embedding of `schema.ParseGroupVersion`: empty or `"/"` parses to the empty
group and version, no slash means a bare version, exactly one slash splits into
group and version, and two or more slashes are an error. -/
def parseGroupVersion (gv : String) : Except String (String × String) :=
  if gv = "" ∨ gv = "/" then .ok ("", "")
  else
    match splitFirstSlash gv.toList with
    | none => .ok ("", gv)
    | some (g, rest) =>
      if rest.contains '/' then .error ("unexpected GroupVersion string: " ++ gv)
      else .ok (String.mk g, String.mk rest)

/-! ## Data model (mirroring the `metav1` discovery types used by the code) -/

/-- One version of an API group as reported by discovery
(`metav1.GroupVersionForDiscovery`). -/
structure GroupVersionForDiscovery where
  groupVersion : String
  version : String
deriving DecidableEq, Repr

/-- An API group as reported by discovery (`metav1.APIGroup`). -/
structure APIGroup where
  name : String
  versions : List GroupVersionForDiscovery
  preferredVersion : GroupVersionForDiscovery
deriving DecidableEq, Repr

/-- One resource kind within one group version (`metav1.APIResource`). -/
structure APIResource where
  name : String
  namespaced : Bool
  group : String
  kind : String
  verbs : List String
  shortNames : List String
  categories : List String
deriving DecidableEq, Repr

/-- The resource list of one group version (`metav1.APIResourceList`). -/
structure APIResourceList where
  groupVersion : String
  apiResources : List APIResource
deriving DecidableEq, Repr

/-- The list of server groups (`metav1.APIGroupList`). -/
structure APIGroupList where
  groups : List APIGroup
deriving DecidableEq, Repr

/-- The synthesized record of the pipeline (Go struct `groupResource`):
one resource joined with its group, the discovered group-version string, and
the computed preferred flag. -/
structure groupResource where
  apiGroup : APIGroup
  apiGroupVersion : String
  apiResource : APIResource
  preferred : Bool
deriving DecidableEq, Repr

/-- Command options (`apiResourceVersionsOptions`), including the
`Changed`-flags that distinguish an explicitly set filter from a default. -/
structure apiResourceVersionsOptions where
  output : String
  sortBy : String
  apiGroup : String
  namespaced : Bool
  verbs : List String
  noHeaders : Bool
  cached : Bool
  categories : List String
  preferred : Bool
  groupChanged : Bool
  nsChanged : Bool
  preferredChanged : Bool
deriving DecidableEq, Repr

/-- Defaults from `newAPIResourceVersionsOptions` plus zero-values of the
remaining fields: only `Namespaced` defaults to true, nothing is `Changed`. -/
def defaultOptions : apiResourceVersionsOptions :=
  { output := "", sortBy := "", apiGroup := "", namespaced := true, verbs := []
    noHeaders := false, cached := false, categories := [], preferred := false
    groupChanged := false, nsChanged := false, preferredChanged := false }

/-- The discovery client collaborator, as a record of pure fallible calls
(`discovery.CachedDiscoveryInterface` as consumed by the code). -/
structure DiscoveryClient where
  serverGroups : Except String APIGroupList
  serverResourcesForGroupVersion : String → Except String APIResourceList
  serverPreferredResources : Except String (List APIResourceList)

/-- Output-format constant `wideOutput`. -/
def wideOutput : String := "wide"

/-- Output-format constant `nameOutput`. -/
def nameOutput : String := "name"

/-- Sort-key constant `nameSortBy`. -/
def nameSortBy : String := "name"

/-- Sort-key constant `kindSortBy`. -/
def kindSortBy : String := "kind"

/-! ## Name splitting and the preferred-version index -/

/-- Embedding of `splitResourceName`: the base name before the first `/`, and
the subresource part after it if present (`strings.SplitN(name, "/", 2)`). -/
def splitResourceName (resourceName : String) : String × Option String :=
  match splitFirstSlash resourceName.toList with
  | none => (resourceName, none)
  | some (a, b) => (String.mk a, some (String.mk b))

/-- Embedding of `unversionedResourceName`: `"<base>.<group>"` plus the
subresource part if present. -/
def unversionedResourceName (resource : APIResource) : String × Option String :=
  let p := splitResourceName resource.name
  (p.1 ++ "." ++ resource.group, p.2)

/-- The `resource.Group = groupVersion.Group` assignment done by the code
before using a discovery-returned resource. -/
def resourceWithGroup (groupName : String) (res : APIResource) : APIResource :=
  { res with group := groupName }

/-- Lookup in the preferred-version index. The index is an association list in
which later insertions were consed to the front, so taking the first hit gives
Go's later-insert-overwrites map semantics. -/
def lookupPref (m : List (String × String)) (k : String) : Option String :=
  (m.find? (fun p => p.1 == k)).map (fun p => p.2)

/-- The inner loop of `getPreferredResourceVersions` over one resource list:
descriptors with a subresource part are skipped, the rest insert
`"<base>.<group>" ↦ version` (cons to the front = overwrite). -/
def insertResources (g v : String) (rs : List APIResource)
    (acc : List (String × String)) : List (String × String) :=
  rs.foldl
    (fun acc res =>
      let res := resourceWithGroup g res
      let p := unversionedResourceName res
      match p.2 with
      | some _ => acc
      | none => (p.1, v) :: acc)
    acc

/-- The loop of `getPreferredResourceVersions` over the preferred-resources
summary: parse each pair's group-version, abort on a parse failure, otherwise
insert its non-subresource descriptors. -/
def buildPreferredIndex :
    List APIResourceList → List (String × String) →
      Except String (List (String × String))
  | [], acc => .ok acc
  | rl :: rest, acc =>
    match parseGroupVersion rl.groupVersion with
    | .error e => .error ("couldn't parse group version " ++ rl.groupVersion ++ ": " ++ e)
    | .ok (g, v) => buildPreferredIndex rest (insertResources g v rl.apiResources acc)

/-- Embedding of `getPreferredResourceVersions`: fetch the server's
preferred-resources summary and build the `"<base>.<group>" ↦ version` index. -/
def getPreferredResourceVersions (client : DiscoveryClient) :
    Except String (List (String × String)) :=
  match client.serverPreferredResources with
  | .error e => .error ("couldn't get server preferred resources: " ++ e)
  | .ok lists => buildPreferredIndex lists []

/-! ## Filtering -/

/-- Embedding of `excludeGroup`: exclude the whole group iff the group filter
was explicitly set and differs from the group's name. -/
def excludeGroup (group : APIGroup) (o : apiResourceVersionsOptions) : Bool :=
  o.groupChanged && o.apiGroup != group.name

/-- Embedding of `excludeGroupResource`: subresources (name containing `/`)
are always excluded; then each explicitly-set or non-empty filter may
exclude. `sets.New(...).HasAll(...)` is membership of every filter element. -/
def excludeGroupResource (resource : groupResource)
    (o : apiResourceVersionsOptions) : Bool :=
  if resource.apiResource.name.toList.contains '/' then true
  else if o.nsChanged && o.namespaced != resource.apiResource.namespaced then true
  else if !o.verbs.isEmpty && !o.verbs.all (fun v => resource.apiResource.verbs.contains v) then true
  else if !o.categories.isEmpty && !o.categories.all (fun c => resource.apiResource.categories.contains c) then true
  else if o.preferredChanged && o.preferred != resource.preferred then true
  else false

/-! ## Enumeration -/

/-- The per-descriptor body of the version loop in `processGroupResources`:
set the group, skip subresources, compute the preferred flag from the index,
build the record and apply the resource filter. -/
def processResource (o : apiResourceVersionsOptions) (group : APIGroup)
    (version : GroupVersionForDiscovery) (prefs : List (String × String))
    (res : APIResource) : Option groupResource :=
  let res := resourceWithGroup group.name res
  let p := unversionedResourceName res
  match p.2 with
  | some _ => none
  | none =>
    let preferred :=
      match lookupPref prefs p.1 with
      | some pv => pv == version.version
      | none => false
    let r : groupResource :=
      { apiGroup := group, apiGroupVersion := version.groupVersion
        apiResource := res, preferred := preferred }
    if excludeGroupResource r o then none else some r

/-- The version loop of `processGroupResources`: fetch each group version's
resource list (wrapping a failure and aborting), process its descriptors, and
accumulate in discovery order. -/
def processVersionsAux (client : DiscoveryClient) (o : apiResourceVersionsOptions)
    (group : APIGroup) (prefs : List (String × String)) :
    List GroupVersionForDiscovery → Except String (List groupResource)
  | [] => .ok []
  | version :: rest =>
    match client.serverResourcesForGroupVersion version.groupVersion with
    | .error e =>
      .error ("couldn't get server resources for group version " ++ version.groupVersion ++ ": " ++ e)
    | .ok rl =>
      match processVersionsAux client o group prefs rest with
      | .error e => .error e
      | .ok restResources =>
        .ok (rl.apiResources.filterMap (processResource o group version prefs) ++ restResources)

/-- Embedding of `processGroupResources`: walk every version of one group. -/
def processGroupResources (client : DiscoveryClient) (o : apiResourceVersionsOptions)
    (group : APIGroup) (prefs : List (String × String)) :
    Except String (List groupResource) :=
  processVersionsAux client o group prefs group.versions

/-- The group loop of `getGroupResources`: skip excluded groups, process the
rest, abort on the first error. -/
def processGroups (client : DiscoveryClient) (o : apiResourceVersionsOptions)
    (prefs : List (String × String)) :
    List APIGroup → Except String (List groupResource)
  | [] => .ok []
  | g :: rest =>
    if excludeGroup g o then processGroups client o prefs rest
    else
      match processGroupResources client o g prefs with
      | .error e => .error e
      | .ok rs =>
        match processGroups client o prefs rest with
        | .error e => .error e
        | .ok restResources => .ok (rs ++ restResources)

/-- Embedding of `getGroupResources`: fetch the groups and the
preferred-version index, then enumerate. The cache-invalidation call is a
side effect on the collaborator with no bearing on the returned data. -/
def getGroupResources (client : DiscoveryClient) (o : apiResourceVersionsOptions) :
    Except String (List groupResource) :=
  match client.serverGroups with
  | .error e => .error ("couldn't get server groups: " ++ e)
  | .ok groupList =>
    match getPreferredResourceVersions client with
    | .error e => .error ("couldn't get preferred resource versions: " ++ e)
    | .ok prefs => processGroups client o prefs groupList.groups

/-! ## Formatting -/

/-- Embedding of `groupResource.PreferredGroupVersion`. -/
def PreferredGroupVersion (gr : groupResource) : Bool :=
  gr.apiGroup.preferredVersion.groupVersion == gr.apiGroupVersion

/-- Embedding of `groupResource.fullname`; the two panic branches are modelled
as errors so that reaching them is observable. -/
def fullname (gr : groupResource) : Except String String :=
  match parseGroupVersion gr.apiGroupVersion with
  | .error e => .error ("error parsing group version: " ++ e)
  | .ok (g, v) =>
    if g != gr.apiGroup.name then
      .error ("group version " ++ g ++ " does not match group " ++ gr.apiGroup.name)
    else .ok (gr.apiResource.name ++ "." ++ v ++ "." ++ gr.apiGroup.name)

/-- Rendering of a Go `bool` by `%v` and `%t`. -/
def boolString (b : Bool) : String := if b then "true" else "false"

/-- Embedding of `printHeaders`: the header cells, wide output appending
GROUPPREFERRED, VERBS and CATEGORIES. -/
def printHeaders (output : String) : List String :=
  let headers := ["NAME", "SHORTNAMES", "APIVERSION", "NAMESPACED", "KIND", "PREFERRED"]
  if output == "wide" then headers ++ ["GROUPPREFERRED", "VERBS", "CATEGORIES"]
  else headers

/-- The tab-separated cells written by `printGroupResourcesDefault`. -/
def defaultRowCells (r : groupResource) : List String :=
  [r.apiResource.name, String.intercalate "," r.apiResource.shortNames,
   r.apiGroupVersion, boolString r.apiResource.namespaced, r.apiResource.kind,
   boolString r.preferred]

/-- The tab-separated cells written by `printGroupResourcesWide`. -/
def wideRowCells (r : groupResource) : List String :=
  [r.apiResource.name, String.intercalate "," r.apiResource.shortNames,
   r.apiGroupVersion, boolString r.apiResource.namespaced, r.apiResource.kind,
   boolString r.preferred, boolString (PreferredGroupVersion r),
   String.intercalate "," r.apiResource.verbs,
   String.intercalate "," r.apiResource.categories]

/-! ## Sorting

Go's `sort.Stable(sortableResource{resources, sortBy})` is the stable sort
for the comparator `sortableResource.Less`. A stable sort for a strict weak
comparator `Less` is the insertion sort for the total preorder
`a ≼ b ↔ ¬ Less b a`, which is what `sortResources` computes.
-/

/-- Embedding of `sortableResource.Less`: by resource name, by kind, or by
group name breaking ties by resource name. -/
def lessGR (sortBy : String) (l r : groupResource) : Bool :=
  if sortBy == nameSortBy then decide (l.apiResource.name < r.apiResource.name)
  else if sortBy == kindSortBy then decide (l.apiResource.kind < r.apiResource.kind)
  else if l.apiGroup.name != r.apiGroup.name then decide (l.apiGroup.name < r.apiGroup.name)
  else decide (l.apiResource.name < r.apiResource.name)

/-- The total preorder induced by `lessGR`, under which the insertion sort is
exactly the stable sort for `lessGR`. -/
def stableLe (sortBy : String) (a b : groupResource) : Prop :=
  lessGR sortBy b a = false

instance (sortBy : String) : DecidableRel (stableLe sortBy) :=
  fun a b => inferInstanceAs (Decidable (lessGR sortBy b a = false))

/-- Embedding of the `sort.Stable` call in `printGroupResources`. -/
def sortResources (sortBy : String) (l : List groupResource) : List groupResource :=
  l.insertionSort (stableLe sortBy)

/-! ## Printing and the run entry point -/

/-- One output row for one record, by output format; the name format uses
`fullname`, whose panic is modelled as an error. -/
def renderResource (o : apiResourceVersionsOptions) (r : groupResource) :
    Except String String :=
  if o.output == nameOutput then fullname r
  else if o.output == wideOutput then .ok (String.intercalate "\t" (wideRowCells r))
  else .ok (String.intercalate "\t" (defaultRowCells r))

/-- Render every record, aborting on the first failure. -/
def renderAll (o : apiResourceVersionsOptions) :
    List groupResource → Except String (List String)
  | [] => .ok []
  | r :: rest =>
    match renderResource o r with
    | .error e => .error e
    | .ok line =>
      match renderAll o rest with
      | .error e => .error e
      | .ok lines => .ok (line :: lines)

/-- Embedding of `printGroupResources`: optional header line, stable sort,
then one line per record. The output sink is modelled as the returned list of
lines and never fails to write. -/
def printGroupResources (resources : List groupResource)
    (o : apiResourceVersionsOptions) : Except String (List String) :=
  let headerLines :=
    if !o.noHeaders && o.output != nameOutput then
      [String.intercalate "\t" (printHeaders o.output)]
    else []
  match renderAll o (sortResources o.sortBy resources) with
  | .error e => .error e
  | .ok lines => .ok (headerLines ++ lines)

/-- The distinguished `errNoResourcesFound` error. -/
def errNoResourcesFound : String := "no resources found"

/-- Embedding of `runAPIResourceVersions`: enumerate, report the distinguished
no-resources error unless the output format is `name`, then print. -/
def runAPIResourceVersions (client : DiscoveryClient)
    (o : apiResourceVersionsOptions) : Except String (List String) :=
  match getGroupResources client o with
  | .error e => .error e
  | .ok resources =>
    if resources.isEmpty && o.output != nameOutput then .error errNoResourcesFound
    else printGroupResources resources o

/-! ## Specification-side description of the preferred-version index

`preferredIndexSpec` is written from the specification's words (§4.1), not
from the code, to compare the built index against: for a key it returns the
version of the pair whose descriptors contain a non-subresource descriptor
with that key, with later pairs overwriting earlier ones, ignoring
descriptors whose name contains a slash.
-/

/-- Whether a descriptor of a pair with parsed group `g` is a non-subresource
descriptor whose `"<base>.<group>"` key is `k`. -/
def matchesKey (g k : String) (r : APIResource) : Bool :=
  (splitResourceName r.name).2.isNone && ((splitResourceName r.name).1 ++ "." ++ g == k)

/-- Spec-side index: the version of the last pair that mentions the key via a
non-subresource descriptor (later pairs overwrite earlier ones). -/
def preferredIndexSpec : List APIResourceList → String → Option String
  | [], _ => none
  | rl :: rest, k =>
    match preferredIndexSpec rest k with
    | some v => some v
    | none =>
      match parseGroupVersion rl.groupVersion with
      | .ok (g, v) => if rl.apiResources.any (matchesKey g k) then some v else none
      | .error _ => none

/-! ## Concrete fixtures used by the end-to-end claims -/

/-- The `deployments` descriptor as returned by discovery (its `Group` field
unset, as the code's comment `Why is this not set?` observes). -/
def deploymentsResource : APIResource :=
  { name := "deployments", namespaced := true, group := "", kind := "Deployment"
    verbs := [], shortNames := [], categories := [] }

/-- The `apps` group with versions `v1` (group-preferred) and `v1beta1`. -/
def appsGroup : APIGroup :=
  { name := "apps"
    versions := [⟨"apps/v1", "v1"⟩, ⟨"apps/v1beta1", "v1beta1"⟩]
    preferredVersion := ⟨"apps/v1", "v1"⟩ }

/-- Discovery client for the apps/deployments scenario: both versions expose
`deployments`, the preferred-resources summary lists it only under `apps/v1`. -/
def appsClient : DiscoveryClient :=
  { serverGroups := .ok ⟨[appsGroup]⟩
    serverResourcesForGroupVersion := fun gv =>
      if gv == "apps/v1" then .ok ⟨"apps/v1", [deploymentsResource]⟩
      else if gv == "apps/v1beta1" then .ok ⟨"apps/v1beta1", [deploymentsResource]⟩
      else .error "no such group version"
    serverPreferredResources := .ok [⟨"apps/v1", [deploymentsResource]⟩] }

/-- Options with the preferred filter explicitly set to true. -/
def preferredTrueOptions : apiResourceVersionsOptions :=
  { defaultOptions with preferred := true, preferredChanged := true }

/-- The record the enumeration produces for `deployments` under `apps/v1`. -/
def appsV1Deployments : groupResource :=
  { apiGroup := appsGroup, apiGroupVersion := "apps/v1"
    apiResource := { deploymentsResource with group := "apps" }, preferred := true }

/-- The record the enumeration produces for `deployments` under `apps/v1beta1`. -/
def appsV1beta1Deployments : groupResource :=
  { apiGroup := appsGroup, apiGroupVersion := "apps/v1beta1"
    apiResource := { deploymentsResource with group := "apps" }, preferred := false }

/-- The `pods` descriptor of the core group. -/
def podsResource : APIResource :=
  { name := "pods", namespaced := true, group := "", kind := "Pod"
    verbs := [], shortNames := [], categories := [] }

/-- The `pods/status` subresource descriptor of the core group. -/
def podsStatusResource : APIResource :=
  { name := "pods/status", namespaced := true, group := "", kind := "Pod"
    verbs := [], shortNames := [], categories := [] }

/-- The core (empty-named) group with the single version `v1`. -/
def coreGroup : APIGroup :=
  { name := "", versions := [⟨"v1", "v1"⟩], preferredVersion := ⟨"v1", "v1"⟩ }

/-- Discovery client for the pods / pods-status scenario. -/
def podsClient : DiscoveryClient :=
  { serverGroups := .ok ⟨[coreGroup]⟩
    serverResourcesForGroupVersion := fun gv =>
      if gv == "v1" then .ok ⟨"v1", [podsResource, podsStatusResource]⟩
      else .error "no such group version"
    serverPreferredResources := .ok [⟨"v1", [podsResource, podsStatusResource]⟩] }

/-- The record the enumeration produces for `pods` under core `v1`. -/
def podsRecord : groupResource :=
  { apiGroup := coreGroup, apiGroupVersion := "v1"
    apiResource := podsResource, preferred := true }

/-- The record a subresource-including enumeration would build for
`pods/status` under core `v1` (the code never produces it). -/
def podsStatusRecord : groupResource :=
  { apiGroup := coreGroup, apiGroupVersion := "v1"
    apiResource := podsStatusResource, preferred := false }

/-- Group used by the failing-listing scenario: `apps/v0` then `apps/v1`. -/
def failGroup : APIGroup :=
  { name := "apps"
    versions := [⟨"apps/v0", "v0"⟩, ⟨"apps/v1", "v1"⟩]
    preferredVersion := ⟨"apps/v1", "v1"⟩ }

/-- Client whose `apps/v0` listing succeeds and whose `apps/v1` listing fails. -/
def failClient : DiscoveryClient :=
  { serverGroups := .ok ⟨[failGroup]⟩
    serverResourcesForGroupVersion := fun gv =>
      if gv == "apps/v0" then .ok ⟨"apps/v0", []⟩
      else .error "boom"
    serverPreferredResources := .ok [] }

/-- A client whose topology is entirely empty. -/
def emptyClient : DiscoveryClient :=
  { serverGroups := .ok ⟨[]⟩
    serverResourcesForGroupVersion := fun _ => .error "no such group version"
    serverPreferredResources := .ok [] }

/-- Decidable equality of `Except` values with decidable components. -/
instance {ε α : Type} [DecidableEq ε] [DecidableEq α] : DecidableEq (Except ε α) :=
  fun a b =>
    match a, b with
    | .ok x, .ok y =>
      if h : x = y then .isTrue (by rw [h]) else .isFalse (fun hh => h (Except.ok.inj hh))
    | .ok _, .error _ => .isFalse (fun hh => Except.noConfusion hh)
    | .error _, .ok _ => .isFalse (fun hh => Except.noConfusion hh)
    | .error x, .error y =>
      if h : x = y then .isTrue (by rw [h]) else .isFalse (fun hh => h (Except.error.inj hh))

/-! ## Characterizing the records built by the enumeration -/

/-- What `processResource` guarantees about a record it lets through: the
descriptor was no subresource, the record's fields are the join of group,
group version and descriptor, the preferred flag holds exactly when the index
entry at `"<base>.<group>"` is this version, and the record passed the
resource filter. -/
theorem processResource_some {o : apiResourceVersionsOptions} {group : APIGroup}
    {version : GroupVersionForDiscovery} {prefs : List (String × String)}
    {res : APIResource} {r : groupResource}
    (h : processResource o group version prefs res = some r) :
    (splitResourceName res.name).2 = none ∧
    r.apiGroup = group ∧ r.apiGroupVersion = version.groupVersion ∧
    r.apiResource = resourceWithGroup group.name res ∧
    (r.preferred = true ↔
      lookupPref prefs ((splitResourceName res.name).1 ++ "." ++ group.name)
        = some version.version) ∧
    excludeGroupResource r o = false := by
  cases hsub : (splitResourceName res.name).2 with
  | some s => simp [processResource, unversionedResourceName, resourceWithGroup, hsub] at h
  | none =>
    cases hlook : lookupPref prefs ((splitResourceName res.name).1 ++ "." ++ group.name) with
    | none =>
      simp only [processResource, unversionedResourceName, resourceWithGroup, hsub, hlook] at h
      split at h
      · exact absurd h (by simp)
      · rename_i hex
        rw [Option.some_inj] at h
        subst h
        simp_all [resourceWithGroup]
    | some pv =>
      simp only [processResource, unversionedResourceName, resourceWithGroup, hsub, hlook] at h
      split at h
      · exact absurd h (by simp)
      · rename_i hex
        rw [Option.some_inj] at h
        subst h
        simp_all [resourceWithGroup, beq_iff_eq]

/-- Every record in a successful `processVersionsAux` result comes from some
listed version's resource list via `processResource`. -/
theorem processVersionsAux_ok_mem {client : DiscoveryClient}
    {o : apiResourceVersionsOptions} {group : APIGroup}
    {prefs : List (String × String)} :
    ∀ {vs : List GroupVersionForDiscovery} {rs : List groupResource}
      {r : groupResource},
      processVersionsAux client o group prefs vs = .ok rs → r ∈ rs →
      ∃ version ∈ vs, ∃ rl,
        client.serverResourcesForGroupVersion version.groupVersion = .ok rl ∧
        ∃ res ∈ rl.apiResources, processResource o group version prefs res = some r := by
  intro vs
  induction vs with
  | nil =>
    intro rs r h hr
    simp only [processVersionsAux] at h
    cases h
    simp at hr
  | cons version rest ih =>
    intro rs r h hr
    simp only [processVersionsAux] at h
    cases hfetch : client.serverResourcesForGroupVersion version.groupVersion with
    | error e => rw [hfetch] at h; exact absurd h (by simp)
    | ok rl =>
      rw [hfetch] at h
      cases hrec : processVersionsAux client o group prefs rest with
      | error e => rw [hrec] at h; exact absurd h (by simp)
      | ok restRs =>
        rw [hrec] at h
        rw [Except.ok.injEq] at h
        subst h
        rcases List.mem_append.mp hr with hmem | hmem
        · rcases List.mem_filterMap.mp hmem with ⟨res, hres, hsome⟩
          exact ⟨version, List.mem_cons_self _ _, rl, hfetch, res, hres, hsome⟩
        · rcases ih hrec hmem with ⟨v, hv, rl2, hrl2, res, hres, hsome⟩
          exact ⟨v, List.mem_cons_of_mem _ hv, rl2, hrl2, res, hres, hsome⟩

/-- Every record in a successful `processGroups` result comes from some
non-excluded listed group via `processGroupResources`. -/
theorem processGroups_ok_mem {client : DiscoveryClient}
    {o : apiResourceVersionsOptions} {prefs : List (String × String)} :
    ∀ {gs : List APIGroup} {rs : List groupResource} {r : groupResource},
      processGroups client o prefs gs = .ok rs → r ∈ rs →
      ∃ g ∈ gs, excludeGroup g o = false ∧
        ∃ rsg, processGroupResources client o g prefs = .ok rsg ∧ r ∈ rsg := by
  intro gs
  induction gs with
  | nil =>
    intro rs r h hr
    simp only [processGroups] at h
    cases h
    simp at hr
  | cons g rest ih =>
    intro rs r h hr
    simp only [processGroups] at h
    by_cases hexc : excludeGroup g o = true
    · rw [if_pos hexc] at h
      rcases ih h hr with ⟨g2, hg2, hx, rsg, hrsg, hmem⟩
      exact ⟨g2, List.mem_cons_of_mem _ hg2, hx, rsg, hrsg, hmem⟩
    · rw [if_neg hexc] at h
      cases hproc : processGroupResources client o g prefs with
      | error e => rw [hproc] at h; exact absurd h (by simp)
      | ok rsg =>
        rw [hproc] at h
        cases hrest : processGroups client o prefs rest with
        | error e => rw [hrest] at h; exact absurd h (by simp)
        | ok restRs =>
          rw [hrest] at h
          rw [Except.ok.injEq] at h
          subst h
          rcases List.mem_append.mp hr with hmem | hmem
          · exact ⟨g, List.mem_cons_self _ _, Bool.not_eq_true _ ▸ hexc, rsg, hproc, hmem⟩
          · rcases ih hrest hmem with ⟨g2, hg2, hx, rsg2, hrsg2, hmem2⟩
            exact ⟨g2, List.mem_cons_of_mem _ hg2, hx, rsg2, hrsg2, hmem2⟩

/-- Every record in a successful `getGroupResources` result comes from a
fetched group list and the built preferred-version index. -/
theorem getGroupResources_ok_mem {client : DiscoveryClient}
    {o : apiResourceVersionsOptions} {rs : List groupResource} {r : groupResource}
    (h : getGroupResources client o = .ok rs) (hr : r ∈ rs) :
    ∃ gl, client.serverGroups = .ok gl ∧
      ∃ prefs, getPreferredResourceVersions client = .ok prefs ∧
        ∃ g ∈ gl.groups, excludeGroup g o = false ∧
          ∃ rsg, processGroupResources client o g prefs = .ok rsg ∧ r ∈ rsg := by
  unfold getGroupResources at h
  cases hgl : client.serverGroups with
  | error e => rw [hgl] at h; exact absurd h (by simp)
  | ok gl =>
    rw [hgl] at h
    cases hprefs : getPreferredResourceVersions client with
    | error e => rw [hprefs] at h; exact absurd h (by simp)
    | ok prefs =>
      rw [hprefs] at h
      exact ⟨gl, rfl, prefs, rfl, processGroups_ok_mem h hr⟩

/-- Records of a successful enumeration never carry a subresource name: the
version loop skips any descriptor whose name splits off a subresource part. -/
theorem getGroupResources_no_subresource {client : DiscoveryClient}
    {o : apiResourceVersionsOptions} {rs : List groupResource} {r : groupResource}
    (h : getGroupResources client o = .ok rs) (hr : r ∈ rs) :
    (splitResourceName r.apiResource.name).2 = none := by
  rcases getGroupResources_ok_mem h hr with
    ⟨gl, _, prefs, _, g, _, _, rsg, hrsg, hmem⟩
  rcases processVersionsAux_ok_mem hrsg hmem with
    ⟨version, _, rl, _, res, _, hsome⟩
  rcases processResource_some hsome with ⟨hsub, _, _, hres, _, _⟩
  rw [hres]
  simpa [resourceWithGroup, splitResourceName] using hsub

/-- C1. For every record produced by the enumeration, the preferred flag is
true exactly when the preferred-version index entry at
`"<base-name>.<group>"` equals the version the record was discovered under,
and an absent entry forces the flag to false. -/
theorem enumerated_preferred_iff_index
    (client : DiscoveryClient) (o : apiResourceVersionsOptions) (group : APIGroup)
    (prefs : List (String × String)) (rs : List groupResource) (r : groupResource)
    (h1 : processGroupResources client o group prefs = .ok rs) (h2 : r ∈ rs) :
    ∃ version ∈ group.versions, r.apiGroupVersion = version.groupVersion ∧
      (r.preferred = true ↔
        lookupPref prefs ((splitResourceName r.apiResource.name).1 ++ "." ++ group.name)
          = some version.version) ∧
      (lookupPref prefs ((splitResourceName r.apiResource.name).1 ++ "." ++ group.name)
          = none → r.preferred = false) := by
  rcases processVersionsAux_ok_mem h1 h2 with
    ⟨version, hv, rl, _, res, _, hsome⟩
  rcases processResource_some hsome with ⟨hsub, _, hgv, hres, hpref, _⟩
  have hname : (splitResourceName r.apiResource.name).1 = (splitResourceName res.name).1 := by
    rw [hres]
    rfl
  refine ⟨version, hv, hgv, ?_, ?_⟩
  · rw [hname]
    exact hpref
  · intro hnone
    rw [hname] at hnone
    rw [hnone] at hpref
    cases hp : r.preferred
    · rfl
    · exact absurd (hpref.mp hp) (by simp)

/-- Witness for `enumerated_preferred_iff_index` on the concrete
apps/deployments topology. -/
theorem enumerated_preferred_iff_index_witness :
    ∃ version ∈ appsGroup.versions,
      appsV1Deployments.apiGroupVersion = version.groupVersion ∧
      (appsV1Deployments.preferred = true ↔
        lookupPref [("deployments.apps", "v1")]
          ((splitResourceName appsV1Deployments.apiResource.name).1 ++ "." ++ appsGroup.name)
          = some version.version) ∧
      (lookupPref [("deployments.apps", "v1")]
          ((splitResourceName appsV1Deployments.apiResource.name).1 ++ "." ++ appsGroup.name)
          = none → appsV1Deployments.preferred = false) :=
  enumerated_preferred_iff_index appsClient defaultOptions appsGroup
    [("deployments.apps", "v1")] [appsV1Deployments, appsV1beta1Deployments]
    appsV1Deployments rfl (List.mem_cons_self _ _)

/-- C2. End-to-end apps/deployments scenario: the unfiltered enumeration
yields exactly the `apps/v1` record (preferred) and the `apps/v1beta1` record
(not preferred), the preferred-only enumeration yields exactly the `apps/v1`
record, and its name-format line is `deployments.v1.apps`. -/
theorem end_to_end_apps_deployments :
    getGroupResources appsClient defaultOptions
        = .ok [appsV1Deployments, appsV1beta1Deployments] ∧
    appsV1Deployments.preferred = true ∧
    appsV1beta1Deployments.preferred = false ∧
    getGroupResources appsClient preferredTrueOptions = .ok [appsV1Deployments] ∧
    fullname appsV1Deployments = .ok "deployments.v1.apps" :=
  ⟨rfl, rfl, rfl, rfl, rfl⟩

/-- C10. For a record constructed by the enumerator, if its group-version
string parses with a group component equal to its group's name, `fullname`
reaches neither panic branch and returns `"<name>.<version>.<group>"`. -/
theorem fullname_no_panic
    (client : DiscoveryClient) (o : apiResourceVersionsOptions) (group : APIGroup)
    (prefs : List (String × String)) (rs : List groupResource) (r : groupResource)
    (g v : String)
    (h1 : processGroupResources client o group prefs = .ok rs) (h2 : r ∈ rs)
    (hp : parseGroupVersion r.apiGroupVersion = .ok (g, v))
    (hg : g = r.apiGroup.name) :
    fullname r = .ok (r.apiResource.name ++ "." ++ v ++ "." ++ r.apiGroup.name) := by
  unfold fullname
  rw [hp, hg]
  simp

/-- Witness for `fullname_no_panic` on the concrete apps/deployments topology. -/
theorem fullname_no_panic_witness :
    fullname appsV1Deployments
      = .ok (appsV1Deployments.apiResource.name ++ "." ++ "v1" ++ "."
          ++ appsV1Deployments.apiGroup.name) :=
  fullname_no_panic appsClient defaultOptions appsGroup
    [("deployments.apps", "v1")] [appsV1Deployments, appsV1beta1Deployments]
    appsV1Deployments "apps" "v1" rfl (List.mem_cons_self _ _) rfl rfl

/-- C5 counterexample. The name-format rendering of the `pods/status` record
uses the full slash-containing resource name: it is `pods/status.v1.`, not
the claimed `pods.v1. status`. -/
theorem subresource_name_format_cex :
    fullname podsStatusRecord = .ok "pods/status.v1." ∧
    fullname podsStatusRecord ≠ .ok "pods.v1. status" :=
  ⟨rfl, by decide⟩

/-- C5 amended. Default filtering excludes `pods/status` entirely; the code
offers no subresource-inclusion option at all — with every possible option
value the enumeration only produces records without a subresource part — and
the name-format rendering a subresource record would receive keeps the full
slash name (`pods/status.v1.`). -/
theorem subresources_never_enumerated :
    getGroupResources podsClient defaultOptions = .ok [podsRecord] ∧
    (∀ (o : apiResourceVersionsOptions) (rs : List groupResource) (r : groupResource),
      getGroupResources podsClient o = .ok rs → r ∈ rs →
      (splitResourceName r.apiResource.name).2 = none) ∧
    fullname podsStatusRecord = .ok "pods/status.v1." :=
  ⟨rfl, fun _ _ _ h hr => getGroupResources_no_subresource h hr, rfl⟩

/-- Witness for `subresources_never_enumerated` on its own default-options
enumeration. -/
theorem subresources_never_enumerated_witness :
    (splitResourceName podsRecord.apiResource.name).2 = none :=
  subresources_never_enumerated.2.1 defaultOptions [podsRecord] podsRecord rfl
    (List.mem_singleton.mpr rfl)

/-- C4. With no filter explicitly set (no changed flags, empty verb and
category filters), the resource filter excludes a candidate exactly when its
resource name contains a slash, i.e. when it is a subresource. -/
theorem default_filter_excludes_only_subresources
    (o : apiResourceVersionsOptions) (r : groupResource)
    (hg : o.groupChanged = false) (hn : o.nsChanged = false)
    (hp : o.preferredChanged = false) (hv : o.verbs = []) (hc : o.categories = []) :
    excludeGroupResource r o = r.apiResource.name.toList.contains '/' := by
  unfold excludeGroupResource
  rw [hn, hp, hv, hc]
  cases r.apiResource.name.toList.contains '/' <;> simp

/-- Witness for `default_filter_excludes_only_subresources`: the subresource
candidate `pods/status` is excluded, the base candidate `pods` is kept. -/
theorem default_filter_excludes_only_subresources_witness :
    excludeGroupResource podsStatusRecord defaultOptions = true ∧
    excludeGroupResource podsRecord defaultOptions = false :=
  ⟨(default_filter_excludes_only_subresources defaultOptions podsStatusRecord
      rfl rfl rfl rfl rfl).trans (by decide),
   (default_filter_excludes_only_subresources defaultOptions podsRecord
      rfl rfl rfl rfl rfl).trans (by decide)⟩

/-- C6 counterexample. The wide header row contains a GROUPPREFERRED column,
so it is not the default columns plus only VERBS and CATEGORIES. -/
theorem wide_columns_cex :
    printHeaders "wide" = ["NAME", "SHORTNAMES", "APIVERSION", "NAMESPACED",
      "KIND", "PREFERRED", "GROUPPREFERRED", "VERBS", "CATEGORIES"] ∧
    printHeaders "wide" ≠ ["NAME", "SHORTNAMES", "APIVERSION", "NAMESPACED",
      "KIND", "PREFERRED", "VERBS", "CATEGORIES"] :=
  ⟨rfl, by decide⟩

/-- C6 amended. The wide format renders exactly the default columns plus
GROUPPREFERRED (the group-preferred flag), VERBS (comma-joined) and
CATEGORIES (comma-joined), and no other columns — in the header and in every
data row. -/
theorem wide_columns_amended :
    printHeaders "wide"
        = printHeaders "" ++ ["GROUPPREFERRED", "VERBS", "CATEGORIES"] ∧
    ∀ r : groupResource,
      wideRowCells r = defaultRowCells r
        ++ [boolString (PreferredGroupVersion r),
            String.intercalate "," r.apiResource.verbs,
            String.intercalate "," r.apiResource.categories] :=
  ⟨rfl, fun _ => rfl⟩

/-- The version loop errors on the first failing listing, wrapping the
failing group-version string. -/
theorem processVersionsAux_error_first {client : DiscoveryClient}
    {o : apiResourceVersionsOptions} {group : APIGroup}
    {prefs : List (String × String)} {v : GroupVersionForDiscovery}
    {rest : List GroupVersionForDiscovery} {e : String}
    (hv : client.serverResourcesForGroupVersion v.groupVersion = .error e) :
    ∀ pre : List GroupVersionForDiscovery,
      (∀ u ∈ pre, (client.serverResourcesForGroupVersion u.groupVersion).isOk = true) →
      processVersionsAux client o group prefs (pre ++ v :: rest) =
        .error ("couldn't get server resources for group version "
          ++ v.groupVersion ++ ": " ++ e)
  | [], _ => by simp [processVersionsAux, hv]
  | u :: pre, h => by
    obtain ⟨rl, hrl⟩ : ∃ rl, client.serverResourcesForGroupVersion u.groupVersion = .ok rl := by
      cases hx : client.serverResourcesForGroupVersion u.groupVersion with
      | error e2 =>
        have := h u (List.mem_cons_self _ _)
        rw [hx] at this
        exact absurd this (by simp [Except.isOk, Except.toBool])
      | ok rl => exact ⟨rl, rfl⟩
    rw [List.cons_append]
    simp only [processVersionsAux, hrl]
    rw [processVersionsAux_error_first hv pre
      (fun u2 hu2 => h u2 (List.mem_cons_of_mem _ hu2))]

/-- The group loop propagates the first non-excluded group's error unchanged. -/
theorem processGroups_error_propagates {client : DiscoveryClient}
    {o : apiResourceVersionsOptions} {prefs : List (String × String)}
    {group : APIGroup} {e : String}
    (herr : processGroupResources client o group prefs = .error e)
    (hexc : excludeGroup group o = false) :
    ∀ gpre : List APIGroup,
      (∀ g2 ∈ gpre, excludeGroup g2 o = true ∨
        ∃ rs2, processGroupResources client o g2 prefs = .ok rs2) →
      ∀ grest, processGroups client o prefs (gpre ++ group :: grest) = .error e
  | [], _, grest => by simp [processGroups, hexc, herr]
  | g2 :: gpre, h, grest => by
    rw [List.cons_append]
    rcases h g2 (List.mem_cons_self _ _) with hx | ⟨rs2, hok⟩
    · simp only [processGroups, hx, if_true]
      exact processGroups_error_propagates herr hexc gpre
        (fun g3 hg3 => h g3 (List.mem_cons_of_mem _ hg3)) grest
    · by_cases hx : excludeGroup g2 o = true
      · simp only [processGroups, hx, if_true]
        exact processGroups_error_propagates herr hexc gpre
          (fun g3 hg3 => h g3 (List.mem_cons_of_mem _ hg3)) grest
      · simp only [processGroups, hx, if_false, hok]
        rw [processGroups_error_propagates herr hexc gpre
          (fun g3 hg3 => h g3 (List.mem_cons_of_mem _ hg3)) grest]
        simp

/-- C3 counterexample. The wrapped message the code produces for a failing
listing is `couldn't get server resources for group version X`, not the
claimed `couldn't get resources for group version X`. -/
theorem listing_failure_message_cex :
    getGroupResources failClient defaultOptions
        = .error "couldn't get server resources for group version apps/v1: boom" ∧
    "couldn't get server resources for group version apps/v1: boom"
        ≠ "couldn't get resources for group version apps/v1: boom" ∧
    ¬ List.IsInfix "couldn't get resources for group version".toList
        "couldn't get server resources for group version apps/v1: boom".toList :=
  ⟨rfl, by decide, by decide⟩

/-- C3 amended. If the listing of the first failing group version reached
during enumeration fails, the whole per-group walk — and, when that group is
the first erroring one in the fetched group list, the whole enumeration —
returns the error wrapping the failing group-version string in
`couldn't get server resources for group version X`, so no partial record
sequence is ever returned. -/
theorem listing_failure_aborts_enumeration
    (client : DiscoveryClient) (o : apiResourceVersionsOptions) (group : APIGroup)
    (prefs : List (String × String)) (pre rest : List GroupVersionForDiscovery)
    (v : GroupVersionForDiscovery) (e : String)
    (hsplit : group.versions = pre ++ v :: rest)
    (hpre : ∀ u ∈ pre, (client.serverResourcesForGroupVersion u.groupVersion).isOk = true)
    (hv : client.serverResourcesForGroupVersion v.groupVersion = .error e) :
    processGroupResources client o group prefs =
      .error ("couldn't get server resources for group version "
        ++ v.groupVersion ++ ": " ++ e) ∧
    ∀ gl gpre grest, client.serverGroups = .ok gl →
      getPreferredResourceVersions client = .ok prefs →
      gl.groups = gpre ++ group :: grest →
      excludeGroup group o = false →
      (∀ g2 ∈ gpre, excludeGroup g2 o = true ∨
        ∃ rs2, processGroupResources client o g2 prefs = .ok rs2) →
      getGroupResources client o =
        .error ("couldn't get server resources for group version "
          ++ v.groupVersion ++ ": " ++ e) := by
  have hproc : processGroupResources client o group prefs =
      .error ("couldn't get server resources for group version "
        ++ v.groupVersion ++ ": " ++ e) := by
    unfold processGroupResources
    rw [hsplit]
    exact processVersionsAux_error_first hv pre hpre
  refine ⟨hproc, ?_⟩
  intro gl gpre grest hgl hprefs hgroups hexc hok
  have hrun : getGroupResources client o = processGroups client o prefs gl.groups := by
    unfold getGroupResources
    rw [hgl, hprefs]
  rw [hrun, hgroups]
  exact processGroups_error_propagates hproc hexc gpre hok grest

/-- Witness for `listing_failure_aborts_enumeration` on the concrete failing
client: `apps/v0` lists fine, `apps/v1` fails with `boom`. -/
theorem listing_failure_aborts_enumeration_witness :
    getGroupResources failClient defaultOptions =
      .error ("couldn't get server resources for group version "
        ++ "apps/v1" ++ ": " ++ "boom") :=
  (listing_failure_aborts_enumeration failClient defaultOptions failGroup []
      [⟨"apps/v0", "v0"⟩] [] ⟨"apps/v1", "v1"⟩ "boom" rfl
      (by intro u hu; simp at hu; subst hu; rfl) rfl).2
    ⟨[failGroup]⟩ [] [] rfl rfl rfl rfl (by intro g2 hg2; simp at hg2)

/-- A failing `renderAll` returns a failure of `renderResource` on some record. -/
theorem renderAll_error_shape {o : apiResourceVersionsOptions} :
    ∀ {rs : List groupResource} {e : String}, renderAll o rs = .error e →
      ∃ r, renderResource o r = .error e := by
  intro rs
  induction rs with
  | nil => intro e h; exact absurd h (by simp [renderAll])
  | cons r rest ih =>
    intro e h
    simp only [renderAll] at h
    cases hr : renderResource o r with
    | error e2 =>
      rw [hr] at h
      rw [Except.error.injEq] at h
      exact ⟨r, h ▸ hr⟩
    | ok line =>
      rw [hr] at h
      cases hrest : renderAll o rest with
      | error e2 =>
        rw [hrest] at h
        rw [Except.error.injEq] at h
        exact ih (h ▸ hrest)
      | ok lines => rw [hrest] at h; exact absurd h (by simp)

/-- Any error a row rendering can produce starts with `e` or `g` (the two
`fullname` panic messages); it is never the no-resources message. -/
theorem renderResource_error_head {o : apiResourceVersionsOptions}
    {r : groupResource} {e : String} (h : renderResource o r = .error e) :
    e.data.head? = some 'e' ∨ e.data.head? = some 'g' := by
  unfold renderResource at h
  by_cases hout : (o.output == nameOutput) = true
  · rw [if_pos hout] at h
    unfold fullname at h
    cases hp : parseGroupVersion r.apiGroupVersion with
    | error e2 =>
      rw [hp] at h
      rw [Except.error.injEq] at h
      subst h
      exact .inl rfl
    | ok gv =>
      obtain ⟨g, v⟩ := gv
      rw [hp] at h
      simp only [] at h
      by_cases hg : (g != r.apiGroup.name) = true
      · rw [if_pos hg] at h
        rw [Except.error.injEq] at h
        subst h
        exact .inr rfl
      · rw [if_neg hg] at h
        exact absurd h (by simp)
  · rw [if_neg hout] at h
    by_cases hw : (o.output == wideOutput) = true
    · rw [if_pos hw] at h; exact absurd h (by simp)
    · rw [if_neg hw] at h; exact absurd h (by simp)

/-- The printing stage never returns the distinguished no-resources error. -/
theorem printGroupResources_ne_noResources {rs : List groupResource}
    {o : apiResourceVersionsOptions} :
    printGroupResources rs o ≠ .error errNoResourcesFound := by
  unfold printGroupResources
  cases hra : renderAll o (sortResources o.sortBy rs) with
  | error e =>
    intro hcontra
    rw [Except.error.injEq] at hcontra
    subst hcontra
    rcases renderAll_error_shape hra with ⟨r, hr⟩
    rcases renderResource_error_head hr with h | h <;> exact absurd h (by decide)
  | ok lines => simp

/-- C7. Given a successful enumeration, the run returns the distinguished
no-resources error exactly when zero records passed filtering and the output
format is not `name`; with the `name` format and zero records it returns
success with no output rows. -/
theorem no_resources_found_iff
    (client : DiscoveryClient) (o : apiResourceVersionsOptions)
    (rs : List groupResource)
    (h : getGroupResources client o = .ok rs) :
    (runAPIResourceVersions client o = .error errNoResourcesFound ↔
      (rs = [] ∧ o.output ≠ nameOutput)) ∧
    (rs = [] → o.output = nameOutput → runAPIResourceVersions client o = .ok []) := by
  have hrun : runAPIResourceVersions client o =
      (if rs.isEmpty && o.output != nameOutput then .error errNoResourcesFound
       else printGroupResources rs o) := by
    unfold runAPIResourceVersions
    rw [h]
  constructor
  · constructor
    · intro hres
      rw [hrun] at hres
      by_cases hcond : (rs.isEmpty && (o.output != nameOutput)) = true
      · rw [Bool.and_eq_true] at hcond
        cases rs with
        | nil => exact ⟨rfl, bne_iff_ne.mp hcond.2⟩
        | cons a t => exact absurd hcond.1 (by simp)
      · rw [if_neg hcond] at hres
        exact absurd hres printGroupResources_ne_noResources
    · intro hconj
      rcases hconj with ⟨hrs, hout⟩
      subst hrs
      rw [hrun, if_pos (by simp [bne_iff_ne.mpr hout])]
  · intro hrs hout
    subst hrs
    rw [hrun, if_neg (by simp [hout])]
    unfold printGroupResources
    simp [sortResources, renderAll, hout]

/-- Witness for `no_resources_found_iff` on a client with an empty topology:
the default format errors, the `name` format succeeds with no rows. -/
theorem no_resources_found_iff_witness :
    runAPIResourceVersions emptyClient defaultOptions = .error errNoResourcesFound ∧
    runAPIResourceVersions emptyClient
        { defaultOptions with output := "name" } = .ok [] :=
  ⟨(no_resources_found_iff emptyClient defaultOptions [] rfl).1.mpr
      ⟨rfl, by decide⟩,
    (no_resources_found_iff emptyClient { defaultOptions with output := "name" } [] rfl).2
      rfl rfl⟩

/-- Lookup after inserting one pair's descriptors: a match in the pair wins
(with the pair's version), otherwise the previous index answers. -/
theorem lookupPref_insertResources (g v k : String) :
    ∀ (rs : List APIResource) (acc : List (String × String)),
      lookupPref (insertResources g v rs acc) k =
        if rs.any (matchesKey g k) then some v else lookupPref acc k
  | [], acc => by simp [insertResources]
  | r :: rs, acc => by
    cases hsub : (splitResourceName r.name).2 with
    | some s =>
      have hmk : matchesKey g k r = false := by
        simp [matchesKey, hsub]
      have hstep : insertResources g v (r :: rs) acc = insertResources g v rs acc := by
        simp [insertResources, unversionedResourceName, resourceWithGroup, hsub]
      rw [hstep, lookupPref_insertResources g v k rs acc]
      simp [hmk]
    | none =>
      have hmk : matchesKey g k r = ((splitResourceName r.name).1 ++ "." ++ g == k) := by
        simp [matchesKey, hsub]
      have hstep : insertResources g v (r :: rs) acc =
          insertResources g v rs (((splitResourceName r.name).1 ++ "." ++ g, v) :: acc) := by
        simp [insertResources, unversionedResourceName, resourceWithGroup, hsub]
      rw [hstep, lookupPref_insertResources g v k rs _]
      by_cases hany : rs.any (matchesKey g k) = true
      · simp [hany, hmk]
      · simp only [List.any_cons, hmk, Bool.not_eq_true] at hany ⊢
        rw [hany]
        by_cases hk : ((splitResourceName r.name).1 ++ "." ++ g == k) = true
        · simp [hk, hany, lookupPref]
        · simp only [Bool.not_eq_true] at hk
          simp [hk, hany, lookupPref]

/-- A successful index build looks up exactly as the specification-side
`preferredIndexSpec`, with entries older than the processed pairs as
fallback. -/
theorem buildPreferredIndex_ok_lookup :
    ∀ (lists : List APIResourceList) (acc : List (String × String)),
      (∀ rl ∈ lists, (parseGroupVersion rl.groupVersion).isOk = true) →
      ∃ m, buildPreferredIndex lists acc = .ok m ∧
        ∀ k, lookupPref m k = (preferredIndexSpec lists k).or (lookupPref acc k)
  | [], acc, _ => ⟨acc, rfl, fun k => by simp [preferredIndexSpec]⟩
  | rl :: rest, acc, h => by
    cases hp : parseGroupVersion rl.groupVersion with
    | error e =>
      have := h rl (List.mem_cons_self _ _)
      rw [hp] at this
      exact absurd this (by simp [Except.isOk, Except.toBool])
    | ok gv =>
      obtain ⟨g, v⟩ := gv
      rcases buildPreferredIndex_ok_lookup rest (insertResources g v rl.apiResources acc)
          (fun rl2 h2 => h rl2 (List.mem_cons_of_mem _ h2)) with ⟨m, hm, hlook⟩
      refine ⟨m, ?_, ?_⟩
      · simpa [buildPreferredIndex, hp] using hm
      · intro k
        rw [hlook k, lookupPref_insertResources g v k rl.apiResources acc]
        simp only [preferredIndexSpec, hp]
        cases hspec : preferredIndexSpec rest k with
        | some v2 => simp
        | none =>
          simp only [Option.none_or]
          by_cases hany : rl.apiResources.any (matchesKey g k) = true
          · simp [hany]
          · simp only [Bool.not_eq_true] at hany
            simp [hany]

/-- Entries of the insertion of one pair come from the old index or from a
non-subresource descriptor of the pair. -/
theorem mem_insertResources {g v : String} {q : String × String} :
    ∀ {rs : List APIResource} {acc : List (String × String)},
      q ∈ insertResources g v rs acc →
      q ∈ acc ∨ ∃ res ∈ rs, (splitResourceName res.name).2 = none ∧
        q = ((splitResourceName res.name).1 ++ "." ++ g, v) := by
  intro rs
  induction rs with
  | nil => intro acc h; exact .inl (by simpa [insertResources] using h)
  | cons r rs ih =>
    intro acc h
    cases hsub : (splitResourceName r.name).2 with
    | some s =>
      have hstep : insertResources g v (r :: rs) acc = insertResources g v rs acc := by
        simp [insertResources, unversionedResourceName, resourceWithGroup, hsub]
      rw [hstep] at h
      rcases ih h with hacc | ⟨res, hres, hs, hq⟩
      · exact .inl hacc
      · exact .inr ⟨res, List.mem_cons_of_mem _ hres, hs, hq⟩
    | none =>
      have hstep : insertResources g v (r :: rs) acc =
          insertResources g v rs (((splitResourceName r.name).1 ++ "." ++ g, v) :: acc) := by
        simp [insertResources, unversionedResourceName, resourceWithGroup, hsub]
      rw [hstep] at h
      rcases ih h with hacc | ⟨res, hres, hs, hq⟩
      · rcases List.mem_cons.mp hacc with hq | hacc
        · exact .inr ⟨r, List.mem_cons_self _ _, hsub, hq⟩
        · exact .inl hacc
      · exact .inr ⟨res, List.mem_cons_of_mem _ hres, hs, hq⟩

/-- Entries of a successfully built index come from the starting index or
from a non-subresource descriptor of some parsed pair, carrying the pair's
version. -/
theorem mem_buildPreferredIndex {q : String × String} :
    ∀ {lists : List APIResourceList} {acc m : List (String × String)},
      buildPreferredIndex lists acc = .ok m → q ∈ m →
      q ∈ acc ∨ ∃ rl ∈ lists, ∃ g v, parseGroupVersion rl.groupVersion = .ok (g, v) ∧
        q.2 = v ∧ ∃ res ∈ rl.apiResources, (splitResourceName res.name).2 = none ∧
          q.1 = (splitResourceName res.name).1 ++ "." ++ g := by
  intro lists
  induction lists with
  | nil =>
    intro acc m h hq
    simp only [buildPreferredIndex] at h
    cases h
    exact .inl hq
  | cons rl rest ih =>
    intro acc m h hq
    simp only [buildPreferredIndex] at h
    cases hp : parseGroupVersion rl.groupVersion with
    | error e => rw [hp] at h; exact absurd h (by simp)
    | ok gv =>
      obtain ⟨g, v⟩ := gv
      rw [hp] at h
      simp only [] at h
      rcases ih h hq with hacc | ⟨rl2, hrl2, g2, v2, hp2, hv2, res, hres, hs, hk⟩
      · rcases mem_insertResources hacc with hacc2 | ⟨res, hres, hs, hqe⟩
        · exact .inl hacc2
        · exact .inr ⟨rl, List.mem_cons_self _ _, g, v, hp, by rw [hqe], res, hres, hs,
            by rw [hqe]⟩
      · exact .inr ⟨rl2, List.mem_cons_of_mem _ hrl2, g2, v2, hp2, hv2, res, hres, hs, hk⟩

/-- The index build succeeds exactly when every pair's group-version parses. -/
theorem buildPreferredIndex_isOk :
    ∀ (lists : List APIResourceList) (acc : List (String × String)),
      (buildPreferredIndex lists acc).isOk = true ↔
        ∀ rl ∈ lists, (parseGroupVersion rl.groupVersion).isOk = true
  | [], acc => by simp [buildPreferredIndex, Except.isOk, Except.toBool]
  | rl :: rest, acc => by
    cases hp : parseGroupVersion rl.groupVersion with
    | error e =>
      simp only [buildPreferredIndex, hp]
      constructor
      · intro hcontra; exact absurd hcontra (by simp [Except.isOk, Except.toBool])
      · intro hall
        have := hall rl (List.mem_cons_self _ _)
        rw [hp] at this
        exact absurd this (by simp [Except.isOk, Except.toBool])
    | ok gv =>
      obtain ⟨g, v⟩ := gv
      simp only [buildPreferredIndex, hp]
      rw [buildPreferredIndex_isOk rest _]
      constructor
      · intro hall rl2 hrl2
        rcases List.mem_cons.mp hrl2 with heq | hmem
        · subst heq; rw [hp]; rfl
        · exact hall rl2 hmem
      · intro hall rl2 hrl2
        exact hall rl2 (List.mem_cons_of_mem _ hrl2)

/-- C8. The preferred-version index builder fails (returning no index)
exactly when some group-version string of the summary does not parse;
a successfully built index contains only entries derived from
non-subresource descriptors, keyed `"<base>.<group>"` with the version of
the pair the descriptor appeared in, and looks up exactly as the
specification's later-pairs-overwrite description. -/
theorem preferred_index_build (client : DiscoveryClient)
    (lists : List APIResourceList)
    (h : client.serverPreferredResources = .ok lists) :
    ((getPreferredResourceVersions client).isOk = false ↔
      ∃ rl ∈ lists, (parseGroupVersion rl.groupVersion).isOk = false) ∧
    ∀ m, getPreferredResourceVersions client = .ok m →
      (∀ k, lookupPref m k = preferredIndexSpec lists k) ∧
      ∀ q ∈ m, ∃ rl ∈ lists, ∃ g v, parseGroupVersion rl.groupVersion = .ok (g, v) ∧
        q.2 = v ∧ ∃ res ∈ rl.apiResources, (splitResourceName res.name).2 = none ∧
          q.1 = (splitResourceName res.name).1 ++ "." ++ g := by
  have hgp : getPreferredResourceVersions client = buildPreferredIndex lists [] := by
    unfold getPreferredResourceVersions
    rw [h]
  constructor
  · rw [hgp, Bool.eq_false_iff, ne_eq, buildPreferredIndex_isOk lists []]
    simp [Bool.not_eq_true]
  · intro m hm
    rw [hgp] at hm
    have hall : ∀ rl ∈ lists, (parseGroupVersion rl.groupVersion).isOk = true := by
      rw [← buildPreferredIndex_isOk lists [], hm]
      rfl
    constructor
    · rcases buildPreferredIndex_ok_lookup lists [] hall with ⟨m2, hm2, hlook⟩
      rw [hm] at hm2
      rw [Except.ok.injEq] at hm2
      subst hm2
      intro k
      rw [hlook k]
      simp [lookupPref]
    · intro q hq
      rcases mem_buildPreferredIndex hm hq with habs | hgood
      · exact absurd habs (List.not_mem_nil q)
      · exact hgood

/-- Witness for `preferred_index_build` on the concrete apps summary. -/
theorem preferred_index_build_witness :
    lookupPref [("deployments.apps", "v1")] "deployments.apps" =
      preferredIndexSpec [⟨"apps/v1", [deploymentsResource]⟩] "deployments.apps" :=
  (((preferred_index_build appsClient [⟨"apps/v1", [deploymentsResource]⟩] rfl).2
    [("deployments.apps", "v1")] rfl).1) "deployments.apps"

/-- The default comparator holds exactly for the strict lexicographic order
on (group name, resource name). -/
theorem lessGR_default_true_iff (a b : groupResource) :
    lessGR "" a b = true ↔
      (a.apiGroup.name < b.apiGroup.name ∨
        (a.apiGroup.name = b.apiGroup.name ∧
          a.apiResource.name < b.apiResource.name)) := by
  unfold lessGR
  rw [show (("" : String) == nameSortBy) = false from rfl,
    show (("" : String) == kindSortBy) = false from rfl]
  by_cases hg : a.apiGroup.name = b.apiGroup.name
  · simp [hg]
  · simp [bne, hg]

/-- The induced preorder is the non-strict lexicographic order on
(group name, resource name). -/
theorem stableLe_default_iff (a b : groupResource) :
    stableLe "" a b ↔
      (a.apiGroup.name < b.apiGroup.name ∨
        (a.apiGroup.name = b.apiGroup.name ∧
          a.apiResource.name ≤ b.apiResource.name)) := by
  unfold stableLe
  rw [← Bool.not_eq_true, lessGR_default_true_iff]
  constructor
  · intro h
    push_neg at h
    rcases lt_trichotomy a.apiGroup.name b.apiGroup.name with hlt | heq | hgt
    · exact .inl hlt
    · exact .inr ⟨heq, le_of_not_lt (h.2 heq.symm)⟩
    · exact absurd hgt h.1
  · intro h
    push_neg
    rcases h with hlt | ⟨heq, hle⟩
    · exact ⟨lt_asymm hlt, fun heq2 => absurd (heq2 ▸ hlt) (lt_irrefl _)⟩
    · exact ⟨fun hlt2 => absurd (heq ▸ hlt2) (lt_irrefl _),
        fun _ => not_lt_of_le hle⟩

/-- The induced preorder is total. -/
theorem stableLe_default_total (a b : groupResource) :
    stableLe "" a b ∨ stableLe "" b a := by
  rw [stableLe_default_iff, stableLe_default_iff]
  rcases lt_trichotomy a.apiGroup.name b.apiGroup.name with hlt | heq | hgt
  · exact .inl (.inl hlt)
  · rcases le_total a.apiResource.name b.apiResource.name with hle | hle
    · exact .inl (.inr ⟨heq, hle⟩)
    · exact .inr (.inr ⟨heq.symm, hle⟩)
  · exact .inr (.inl hgt)

/-- The induced preorder is transitive. -/
theorem stableLe_default_trans (a b c : groupResource)
    (hab : stableLe "" a b) (hbc : stableLe "" b c) : stableLe "" a c := by
  rw [stableLe_default_iff] at hab hbc ⊢
  rcases hab with hab | ⟨hab, hab2⟩
  · rcases hbc with hbc | ⟨hbc, _⟩
    · exact .inl (lt_trans hab hbc)
    · exact .inl (hbc ▸ hab)
  · rcases hbc with hbc | ⟨hbc, hbc2⟩
    · exact .inl (hab ▸ hbc)
    · exact .inr ⟨hab.trans hbc, hab2.trans hbc2⟩

/-- Stability building block: inserting an element that satisfies `p` and is
`r`-below every `p`-element of the list prepends it to the `p`-filtered view. -/
theorem filter_orderedInsert_of_pos {α : Type} (r : α → α → Prop) [DecidableRel r]
    (p : α → Bool) (a : α) :
    ∀ l : List α, p a = true → (∀ b ∈ l, p b = true → r a b) →
      (l.orderedInsert r a).filter p = a :: l.filter p
  | [], hpa, _ => by simp [hpa]
  | b :: t, hpa, h => by
    simp only [List.orderedInsert]
    split
    · rw [List.filter_cons_of_pos hpa]
    · rename_i hr
      have hpb : p b = false := by
        cases hb : p b
        · rfl
        · exact absurd (h b (List.mem_cons_self b t) hb) hr
      rw [List.filter_cons_of_neg (by simp [hpb]),
        filter_orderedInsert_of_pos r p a t hpa
          (fun c hc hpc => h c (List.mem_cons_of_mem _ hc) hpc),
        List.filter_cons_of_neg (by simp [hpb])]

/-- Stability building block: inserting an element that fails `p` leaves the
`p`-filtered view unchanged. -/
theorem filter_orderedInsert_of_neg {α : Type} (r : α → α → Prop) [DecidableRel r]
    (p : α → Bool) (a : α) :
    ∀ l : List α, p a = false →
      (l.orderedInsert r a).filter p = l.filter p
  | [], hpa => by simp [hpa]
  | b :: t, hpa => by
    simp only [List.orderedInsert]
    split
    · rw [List.filter_cons_of_neg (by simp [hpa])]
    · cases hb : p b
      · rw [List.filter_cons_of_neg (by simp [hb]),
          filter_orderedInsert_of_neg r p a t hpa,
          List.filter_cons_of_neg (by simp [hb])]
      · rw [List.filter_cons_of_pos hb,
          filter_orderedInsert_of_neg r p a t hpa,
          List.filter_cons_of_pos hb]

/-- Insertion sort is stable: if any two `p`-elements are `r`-related, the
`p`-filtered view of the sorted list is the `p`-filtered input. -/
theorem filter_insertionSort {α : Type} (r : α → α → Prop) [DecidableRel r]
    (p : α → Bool) (hp : ∀ a b, p a = true → p b = true → r a b) :
    ∀ l : List α, (l.insertionSort r).filter p = l.filter p
  | [] => rfl
  | a :: t => by
    simp only [List.insertionSort]
    cases hpa : p a
    · rw [filter_orderedInsert_of_neg r p a _ hpa, filter_insertionSort r p hp t,
        List.filter_cons_of_neg (by simp [hpa])]
    · rw [filter_orderedInsert_of_pos r p a _ hpa
          (fun b _ hpb => hp a b hpa hpb),
        filter_insertionSort r p hp t, List.filter_cons_of_pos hpa]

/-- C9. Sorting with no sort key orders the records ascending
lexicographically by (group name, resource name), and it is stable on ties:
records agreeing on group name and resource name keep their pre-sort
relative order. -/
theorem default_sort_lex_and_stable (l : List groupResource) :
    List.Pairwise
      (fun a b : groupResource =>
        a.apiGroup.name < b.apiGroup.name ∨
          (a.apiGroup.name = b.apiGroup.name ∧
            a.apiResource.name ≤ b.apiResource.name))
      (sortResources "" l) ∧
    ∀ g n : String,
      (sortResources "" l).filter
          (fun x => x.apiGroup.name == g && x.apiResource.name == n) =
        l.filter (fun x => x.apiGroup.name == g && x.apiResource.name == n) := by
  constructor
  · haveI : IsTotal groupResource (stableLe "") := ⟨stableLe_default_total⟩
    haveI : IsTrans groupResource (stableLe "") :=
      ⟨fun a b c => stableLe_default_trans a b c⟩
    exact (List.sorted_insertionSort (stableLe "") l).imp
      (fun h => (stableLe_default_iff _ _).mp h)
  · intro g n
    apply filter_insertionSort
    intro a b hpa hpb
    rw [Bool.and_eq_true, beq_iff_eq, beq_iff_eq] at hpa hpb
    rw [stableLe_default_iff]
    exact .inr ⟨hpa.1.trans hpb.1.symm, le_of_eq (hpa.2.trans hpb.2.symm)⟩
